import Mathlib

/-!
# Verification of the markdown-notes completion/definition engine

Shallow embedding of the completion/definition resolution engine of the
`vscode-markdown-notes` extension, translated from:

* `src/completions.ts` (strategy records, `MarkdownCompletionProvider`,
  `MarkdownDefinitionProvider`, `sluggedFileName`),
* `src/util.ts` (`extractMatchesLineProcessingStrategy`,
  `getWorkspaceMarkdownFiles`, `getWorkspaceMarkdownDocuments`,
  `readFirstLine`, the line processors),
* the earlier `extension.ts` revision (`MetaDataCompletionItemProviderHelper`
  and its person/project/tag instantiations).

Lines of text are `List Char`; paths and file names are `String`.
JavaScript regular expressions used by the strategies are embedded as
dedicated scanning functions that reproduce `RegExp.exec` semantics (with
the `g` flag) for exactly those patterns: left-to-right search, greedy
character-class runs, lookbehind `(?<=\s|^)` and `(?<=(?:\s|^)(\[\[))`,
lookahead `(?=\]\])`, and continuation of the search from `lastIndex`
(the end of the previous match).
-/

namespace MdNotes

/-! ## JavaScript character classes

`\s` in an ECMAScript regular expression (and the character set removed by
`String.prototype.trim`) is: TAB, LF, VT, FF, CR, SP, NBSP, OGHAM SPACE MARK,
EN QUAD .. HAIR SPACE (U+2000-U+200A), LINE SEPARATOR, PARAGRAPH SEPARATOR,
NARROW NO-BREAK SPACE, MEDIUM MATHEMATICAL SPACE, IDEOGRAPHIC SPACE, ZWNBSP.
`\w` is ASCII `[A-Za-z0-9_]`. -/

def isJsWhitespace (c : Char) : Bool :=
  let n := c.toNat
  n == 9 || n == 10 || n == 11 || n == 12 || n == 13 || n == 32 ||
  n == 160 || n == 5760 || (8192 ≤ n && n ≤ 8202) || n == 8232 ||
  n == 8233 || n == 8239 || n == 8287 || n == 12288 || n == 65279

def isWordCharJs (c : Char) : Bool :=
  let n := c.toNat
  (48 ≤ n && n ≤ 57) || (65 ≤ n && n ≤ 90) || (97 ≤ n && n ≤ 122) || n == 95

/-- Character class `[^\#\@\+\[\]\s]` of the person/tag/project strategies. -/
def bodyCharStd (c : Char) : Bool :=
  !(c == '#' || c == '@' || c == '+' || c == '[' || c == ']' || isJsWhitespace c)

/-- Character class `[\w\-\_]` of the older metadata providers
(`'_'` is already in `\w`; the class lists it again). -/
def isMetaBodyChar (c : Char) : Bool :=
  isWordCharJs c || c == '-' || c == '_'

/-- Character class `[^\]\r\n]` of the wiki-link strategy. -/
def isWikiBodyChar (c : Char) : Bool :=
  !(c == ']' || c == '\r' || c == '\n')

/-! ## The slug (`sluggedFileName` in `MarkdownDefinitionProvider`)

```
const sluggedFileName = selectedWord
  .replace(/[^\w\s-]/g, "")
  .trim()
  .replace(/\s+/g, "-")
  .toLowerCase();
```
-/

/-- `replace(/[^\w\s-]/g, "")`: keep word characters, whitespace, hyphens. -/
def slugKeep (c : Char) : Bool :=
  isWordCharJs c || isJsWhitespace c || c == '-'

def removeIllegal (l : List Char) : List Char :=
  l.filter slugKeep

/-- `String.prototype.trim`: drop leading and trailing whitespace
(the set stripped by `trim` coincides with regex `\s`). -/
def trimJs (l : List Char) : List Char :=
  ((l.dropWhile isJsWhitespace).reverse.dropWhile isJsWhitespace).reverse

/-- `replace(/\s+/g, "-")`: every maximal whitespace run becomes one `'-'`.
The boolean argument records whether the previous character was whitespace
(i.e. whether we are inside a run already replaced). -/
def collapseWsAux : Bool → List Char → List Char
  | _, [] => []
  | prevWs, c :: rest =>
    if isJsWhitespace c then
      (if prevWs then [] else ['-']) ++ collapseWsAux true rest
    else
      c :: collapseWsAux false rest

def collapseWs (l : List Char) : List Char :=
  collapseWsAux false l

/-- `toLowerCase`.  At the point in the pipeline where the source applies it
the string consists only of ASCII `[A-Za-z0-9_-]` (everything else has been
stripped or replaced by `'-'` before), where Unicode lowercasing agrees with
ASCII lowercasing `Char.toLower`. -/
def toLowerJs (l : List Char) : List Char :=
  l.map Char.toLower

def slugChars (l : List Char) : List Char :=
  toLowerJs (collapseWs (trimJs (removeIllegal l)))

def sluggedFileName (s : String) : String :=
  ⟨slugChars s.data⟩

/-! ## Path helpers -/

/-- `f.path.match(/\.(md)$/i)` as a boolean: the string ends in `'.'`
followed by `m`/`M` followed by `d`/`D`.  (No other Unicode character
case-folds to `m` or `d`, so ASCII comparison is exact.) -/
def mdPathMatch (s : String) : Bool :=
  match s.data.reverse with
  | d :: m :: dot :: _ =>
    (d == 'd' || d == 'D') && (m == 'm' || m == 'M') && dot == '.'
  | _ => false

/-- Base name of a path: the segment after the last `'/'`. -/
def baseNameChars (l : List Char) : List Char :=
  ((l.reverse.takeWhile (fun c => c != '/'))).reverse

/-- `parse(path).name` from Node's `path` module: the base name with the
extension (from the last `'.'`, provided it is not the leading character
of the base name) removed. -/
def parseName (s : String) : String :=
  let b := baseNameChars s.data
  let afterDot := b.reverse.takeWhile (fun c => c != '.')
  if afterDot.length + 1 ≤ b.length then
    -- there is a dot; drop it and the extension unless the dot is char 0
    if afterDot.length + 1 == b.length then ⟨b⟩
    else ⟨b.take (b.length - afterDot.length - 1)⟩
  else ⟨b⟩

/-- `format({dir, base})` from Node's `path` module, posix separator. -/
def pathFormat (dir base : String) : String :=
  dir ++ "/" ++ base

/-! ## JavaScript array sort order

`Array.prototype.sort()` without comparator sorts strings ascending by
UTF-16 code units. -/

def utf16Units (l : List Char) : List Nat :=
  l.flatMap fun c =>
    if c.toNat < 65536 then [c.toNat]
    else [55296 + (c.toNat - 65536) / 1024, 56320 + (c.toNat - 65536) % 1024]

def unitsLe : List Nat → List Nat → Bool
  | [], _ => true
  | _ :: _, [] => false
  | a :: as, b :: bs =>
    if a < b then true
    else if b < a then false
    else unitsLe as bs

def jsLe (a b : List Char) : Bool :=
  unitsLe (utf16Units a) (utf16Units b)

/-- `[...new Set(xs)]`: distinct elements, first occurrences, in order. -/
def dedupFirst (seen : List (List Char)) : List (List Char) → List (List Char)
  | [] => []
  | a :: as =>
    if a ∈ seen then dedupFirst seen as
    else a :: dedupFirst (a :: seen) as

/-- Insertion into a `jsLe`-sorted list.  `Array.prototype.sort` is only
specified up to producing a sorted permutation; on the deduplicated lists
it is applied to here the comparison has no ties (equal UTF-16 unit
sequences mean equal strings), so the sorted permutation is unique and any
sorting algorithm gives the same list. -/
def insertLe (x : List Char) : List (List Char) → List (List Char)
  | [] => [x]
  | y :: ys => if jsLe x y then x :: y :: ys else y :: insertLe x ys

def sortJs : List (List Char) → List (List Char)
  | [] => []
  | x :: xs => insertLe x (sortJs xs)

/-- `[...new Set(xs)].sort()`. -/
def jsSetSort (l : List (List Char)) : List (List Char) :=
  sortJs (dedupFirst [] l)

/-! ## Embedded regular-expression scanners

One `RMatch` per `exec` hit: `start` is `match.index`, `stop` is the
`lastIndex` after the hit (exclusive end of `match[0]`), `captured` is the
capture group the strategy extracts (`matchGroup`). -/

structure RMatch where
  start : Nat
  stop : Nat
  captured : List Char
  deriving DecidableEq, Repr

/-- Scanner for the trigger-character patterns
`/(?<=\s|^)(T[body]+)/g` (complete, `needBody = true`) and
`/(?<=\s|^)(T[body]*)/g` (range check, `needBody = false`), and for the
older metadata patterns `/(?<=\s|^)(T)([\w\-\_]+)/g` whose extracted group
excludes the trigger (`capTrig = false`).

Arguments: remaining fuel (strictly more than the untraversed characters,
so it never runs out), the current index `i`, `bnd` = whether the
lookbehind `(?<=\s|^)` holds at `i`, and the untraversed characters.
A hit consumes the whole match (the `g`-flag `exec` loop continues from
`lastIndex`); since body characters and the trigger are never whitespace,
the lookbehind is false immediately after a match, so the continuation
state is `false`. -/
def scanTriggerAux (trig : Char) (bodyPred : Char → Bool) (needBody capTrig : Bool) :
    Nat → Nat → Bool → List Char → List RMatch
  | 0, _, _, _ => []
  | _ + 1, _, _, [] => []
  | fuel + 1, i, bnd, c :: rest =>
    if bnd && c == trig && (!needBody || !(rest.takeWhile bodyPred).isEmpty) then
      let body := rest.takeWhile bodyPred
      { start := i, stop := i + 1 + body.length,
        captured := if capTrig then c :: body else body } ::
        scanTriggerAux trig bodyPred needBody capTrig fuel (i + 1 + body.length) false
          (rest.drop body.length)
    else
      scanTriggerAux trig bodyPred needBody capTrig fuel (i + 1) (isJsWhitespace c) rest

def scanTrigger (trig : Char) (bodyPred : Char → Bool) (needBody capTrig : Bool)
    (line : List Char) : List RMatch :=
  scanTriggerAux trig bodyPred needBody capTrig (line.length + 1) 0 true line

/-- Lookbehind state for the wiki-link patterns at the current index `i`:
`bnd` — `(?:\s|^)` matches ending at `i`;
`half` — the character at `i - 1` is `'['` and `(?:\s|^)` matches before it;
`opn` — the characters at `i - 2, i - 1` are `"[["` with `(?:\s|^)` before
them, i.e. the lookbehind `(?<=(?:\s|^)(\[\[))` holds at `i`. -/
structure WikiState where
  bnd : Bool
  half : Bool
  opn : Bool
  deriving DecidableEq, Repr

def wikiStep (st : WikiState) (c : Char) : WikiState :=
  { bnd := isJsWhitespace c, half := c == '[' && st.bnd, opn := c == '[' && st.half }

def wikiSteps (st : WikiState) (l : List Char) : WikiState :=
  l.foldl wikiStep st

/-- The lookahead `(?=\]\])`. -/
def lookaheadCloses : List Char → Bool
  | ']' :: ']' :: _ => true
  | _ => false

/-- Scanner for the wiki-link patterns
`/(?<=(?:\s|^)(\[\[))([^\]\r\n]+)(?=\]\])/g` (`complete = true`) and
`/(?<=(?:\s|^)(\[\[))([^\]\r\n]*)/g` (`complete = false`).
The body run is greedy and cannot backtrack usefully (its characters
exclude `']'`, so shortening it can never satisfy the lookahead), hence a
hit occurs exactly when the maximal run is non-empty and followed by `"]]"`.
A zero-length range-check hit advances one character, as the host's
word-range search does to avoid looping. -/
def scanWikiAux (complete : Bool) : Nat → Nat → WikiState → List Char → List RMatch
  | 0, _, _, _ => []
  | _ + 1, i, st, [] =>
    -- the `*` range-check pattern can still match zero-length at end of input
    if !complete && st.opn then [{ start := i, stop := i, captured := [] }] else []
  | fuel + 1, i, st, c :: rest =>
    if st.opn then
      let body := (c :: rest).takeWhile isWikiBodyChar
      if complete then
        if !body.isEmpty && lookaheadCloses ((c :: rest).drop body.length) then
          { start := i, stop := i + body.length, captured := body } ::
            scanWikiAux complete fuel (i + body.length) (wikiSteps st body)
              ((c :: rest).drop body.length)
        else
          scanWikiAux complete fuel (i + 1) (wikiStep st c) rest
      else
        let adv := max 1 body.length
        { start := i, stop := i + body.length, captured := body } ::
          scanWikiAux complete fuel (i + adv) (wikiSteps st ((c :: rest).take adv))
            ((c :: rest).drop adv)
    else
      scanWikiAux complete fuel (i + 1) (wikiStep st c) rest

def scanWiki (complete : Bool) (line : List Char) : List RMatch :=
  scanWikiAux complete (line.length + 1) 0 ⟨true, false, false⟩ line

/-! ## The strategy registry (`markdownCompletionStrategies`) -/

inductive StratKind
  | person
  | tag
  | project
  | wikiLink
  deriving DecidableEq, Repr

/-- Registry order: person, tag, project, wikiLink. -/
def markdownCompletionStrategies : List StratKind :=
  [.person, .tag, .project, .wikiLink]

inductive CompletionKind
  | value
  | file
  deriving DecidableEq, Repr

def completionKindOf : StratKind → CompletionKind
  | .wikiLink => .file
  | _ => .value

/-- Each strategy's `rangeCheckRegex`. -/
def rangeCheckScan : StratKind → List Char → List RMatch
  | .person => scanTrigger '@' bodyCharStd false true
  | .tag => scanTrigger '#' bodyCharStd false true
  | .project => scanTrigger '+' bodyCharStd false true
  | .wikiLink => scanWiki false

/-- Each strategy's `matchRegex`. -/
def matchScan : StratKind → List Char → List RMatch
  | .person => scanTrigger '@' bodyCharStd true true
  | .tag => scanTrigger '#' bodyCharStd true true
  | .project => scanTrigger '+' bodyCharStd true true
  | .wikiLink => scanWiki true

/-- `document.getWordRangeAtPosition(position, regex)`: the leftmost match
on the position's line whose span contains the position (the position may
sit at either inclusive end of the span). -/
def wordRangeAt (ms : List RMatch) (p : Nat) : Option RMatch :=
  ms.find? fun m => m.start ≤ p && p ≤ m.stop

/-- The first-strategy-wins loop shared by both providers: walk the
registry in order, returning the first strategy whose pattern yields a
word range at the position. -/
def classifyWith (scan : StratKind → List Char → List RMatch) (line : List Char)
    (ch : Nat) : Option (StratKind × RMatch) :=
  markdownCompletionStrategies.findSome? fun k =>
    (wordRangeAt (scan k line) ch).map fun m => (k, m)

/-! ## Workspace model -/

structure TextDocument where
  fileName : String
  lines : List (List Char)
  deriving DecidableEq, Repr

/-- One result of `vscode.workspace.findFiles("**/*")`.  For posix file
URIs `uri.path` and `uri.fsPath` coincide; the model keeps one `path`. -/
structure WFile where
  scheme : String
  path : String
  lines : List (List Char)
  deriving DecidableEq, Repr

structure Workspace where
  files : List WFile
  openDocs : List TextDocument
  roots : Option (List String)
  deriving DecidableEq, Repr

/-- `getWorkspaceMarkdownFiles`: findFiles results with `scheme == "file"`
and `path.match(/\.(md)$/i)`. -/
def getWorkspaceMarkdownFiles (ws : Workspace) : List WFile :=
  ws.files.filter fun f => f.scheme == "file" && mdPathMatch f.path

/-- `getWorkspaceMarkdownDocuments`: open documents whose
`fileName.match(/\.(md)$/i)` (no scheme check). -/
def getWorkspaceMarkdownDocuments (ws : Workspace) : List TextDocument :=
  ws.openDocs.filter fun d => mdPathMatch d.fileName

/-- `readFirstLine`: first line of the file, with a leading BOM stripped. -/
def readFirstLine (f : WFile) : List Char :=
  match f.lines.headD [] with
  | c :: rest => if c.toNat == 65279 then rest else c :: rest
  | [] => []

/-- `extractMatchesLineProcessingStrategy(regex, matchGroup, out, omit?)`
applied to one line: when an excision range is given and its start line is
this line, the span `[start.character, end.character)` is sliced out of
the line before the match loop runs. -/
def extractMatchesLineProcessingStrategy (k : StratKind) (excised : Option (Nat × Nat × Nat))
    (line : List Char) (lineNumber : Nat) : List (List Char) :=
  let text :=
    match excised with
    | some (excisedLine, s, e) =>
      if excisedLine == lineNumber then line.take s ++ line.drop e else line
    | none => line
  (matchScan k text).map (·.captured)

/-- `processFileLineByLine` / `processDocumentLineByLine` feeding the
extraction callback: lines in order with their line numbers.  (The shared
regex's `lastIndex` is `0` again at the start of each line because the
`exec` loop always runs until it returns `null`.) -/
def extractFromLines (k : StratKind) (excised : Option (Nat × Nat × Nat))
    (lines : List (List Char)) : List (List Char) :=
  lines.enum.flatMap fun p => extractMatchesLineProcessingStrategy k excised p.2 p.1

/-- The wiki-link strategy's `additionalStrategy`: for every workspace
markdown file, the remainder of a `"# "` first line, else the parsed
base name. -/
def additionalWikiStrategy (ws : Workspace) : List (List Char) :=
  (getWorkspaceMarkdownFiles ws).map fun f =>
    let firstLine := readFirstLine f
    if firstLine.take 2 = ['#', ' '] then firstLine.drop 2
    else (parseName f.path).data

/-- `new Set(openDocuments.map(doc => doc.fileName))`. -/
def documentNameSet (ws : Workspace) : List String :=
  (getWorkspaceMarkdownDocuments ws).map (·.fileName)

/-- The disk files actually scanned: markdown files whose `fsPath` is not
the `fileName` of an open markdown document. -/
def closedMarkdownFiles (ws : Workspace) : List WFile :=
  (getWorkspaceMarkdownFiles ws).filter fun f => !(documentNameSet ws).contains f.path

/-- The `outputMatches` array accumulated by
`MarkdownCompletionProvider.provideCompletionItems`: closed files first,
then open documents, then the additional strategy (wiki-link only).  The
call site passes no excision range to
`extractMatchesLineProcessingStrategy`, hence the `none`.  The scans of
the individual sources run concurrently and their pushes may interleave,
but the result is deduplicated and sorted, which erases the order. -/
def collectMatches (k : StratKind) (ws : Workspace) : List (List Char) :=
  (closedMarkdownFiles ws).flatMap (fun f => extractFromLines k none f.lines) ++
    (getWorkspaceMarkdownDocuments ws).flatMap (fun d => extractFromLines k none d.lines) ++
    (if k = .wikiLink then additionalWikiStrategy ws else [])

structure CompletionItem where
  label : List Char
  kind : CompletionKind
  insertText : Option (List Char)
  deriving DecidableEq, Repr

def lineAt (doc : TextDocument) (line : Nat) : List Char :=
  doc.lines.getD line []

/-- `MarkdownCompletionProvider.provideCompletionItems`.  A fresh
`vscode.CompletionItem(match, kind)` leaves `insertText` unset, so every
produced item carries `insertText := none`. -/
def provideCompletionItems (ws : Workspace) (doc : TextDocument) (posLine posCh : Nat) :
    Option (List CompletionItem) :=
  match classifyWith rangeCheckScan (lineAt doc posLine) posCh with
  | none => none
  | some (k, _) =>
    some ((jsSetSort (collectMatches k ws)).map fun l =>
      { label := l, kind := completionKindOf k, insertText := none })

/-- A `vscode.Location`; `uri` is `none` when the location was built from
`files[0]` of an empty array (the value `undefined`). -/
structure JsLocation where
  uri : Option String
  line : Nat
  col : Nat
  deriving DecidableEq, Repr

inductive DefOutcome
  | thrown
  | returned (loc : Option JsLocation)
  deriving DecidableEq, Repr

def lineSegment (line : List Char) (s e : Nat) : List Char :=
  (line.drop s).take (e - s)

/-- The tail of `MarkdownDefinitionProvider.provideDefinition` after the
selected word is known.  Returns the outcome together with the list of
files written (`path`, `content`).  `some []` for `workspaceFolders`
makes `workspaceFolders?.[0].uri` raise a TypeError, embedded as
`thrown`. -/
def resolveWith (ws : Workspace) (selectedWord : String) :
    DefOutcome × List (String × String) :=
  let slug := sluggedFileName selectedWord
  let files := (getWorkspaceMarkdownFiles ws).filter fun f => parseName f.path == slug
  match files with
  | f :: _ => (.returned (some ⟨some f.path, 0, 0⟩), [])
  | [] =>
    match ws.roots with
    | none => (.returned (some ⟨none, 0, 0⟩), [])
    | some ([]) => (.thrown, [])
    | some (r :: _) =>
      let newPath := pathFormat r (slug ++ ".md")
      (.returned (some ⟨some newPath, 0, 0⟩), [(newPath, "# " ++ selectedWord)])

/-- `MarkdownDefinitionProvider.provideDefinition` from `completions.ts`:
the registry loop over each strategy's `matchRegex`, then slug-based
resolution with on-demand file creation. -/
def provideDefinition (ws : Workspace) (doc : TextDocument) (posLine posCh : Nat) :
    DefOutcome × List (String × String) :=
  match classifyWith matchScan (lineAt doc posLine) posCh with
  | none => (.returned none, [])
  | some (_, m) =>
    resolveWith ws ⟨lineSegment (lineAt doc posLine) m.start m.stop⟩

/-- `/\s/.test(line.charAt(e))`: `charAt` past the end yields `""`, on
which the test is false. -/
def hasWsAfter (line : List Char) (e : Nat) : Bool :=
  match line.get? e with
  | some c => isJsWhitespace c
  | none => false

/-- `MetaDataCompletionItemProviderHelper` from the earlier `extension.ts`
revision, instantiated at trigger `trig`; `capTrig` tells whether the
extracted group includes the trigger (tag: group 1 with `'#'`;
person/project: group 2 without the trigger).  On the cursor's line the
incomplete-token range is sliced out before extraction, and each item's
`insertText` appends one space unless whitespace already follows the
range. -/
def metaDataHelper (trig : Char) (capTrig : Bool) (doc : TextDocument)
    (posLine posCh : Nat) : Option (List CompletionItem) :=
  let line := lineAt doc posLine
  match wordRangeAt (scanTrigger trig isMetaBodyChar false capTrig line) posCh with
  | none => none
  | some r =>
    let tags := doc.lines.enum.flatMap fun p =>
      let text := if p.1 == posLine then p.2.take r.start ++ p.2.drop r.stop else p.2
      (scanTrigger trig isMetaBodyChar true capTrig text).map (·.captured)
    let wsAfter := hasWsAfter line r.stop
    some ((jsSetSort tags).map fun t =>
      { label := t, kind := .value,
        insertText := some (t ++ if wsAfter then [] else [' ']) })

/-! ## Helper lemmas: the slug pipeline -/

/-- The characters a slug can consist of: ASCII digits, lowercase letters,
`'_'` and `'-'`. -/
def isSlugOut (c : Char) : Bool :=
  let n := c.toNat
  (48 ≤ n && n ≤ 57) || (97 ≤ n && n ≤ 122) || n == 95 || n == 45

theorem toNat_ofNat_lt {n : Nat} (h : n < 55296) : (Char.ofNat n).toNat = n := by
  rw [Char.ofNat, dif_pos (Or.inl h)]
  rfl

theorem toLower_eq_self_of_not_upper {c : Char} (h : ¬(c.toNat ≥ 65 ∧ c.toNat ≤ 90)) :
    Char.toLower c = c := by
  simp only [Char.toLower]
  rw [if_neg h]

theorem char_toNat_inj {c d : Char} (h : c.toNat = d.toNat) : c = d :=
  Char.ext (UInt32.toNat.inj h)

theorem isSlugOut_fixed {c : Char} (h : isSlugOut c = true) :
    slugKeep c = true ∧ isJsWhitespace c = false ∧ Char.toLower c = c := by
  have hn : ((48 ≤ c.toNat ∧ c.toNat ≤ 57 ∨ 97 ≤ c.toNat ∧ c.toNat ≤ 122) ∨
      c.toNat = 95) ∨ c.toNat = 45 := by
    simpa only [isSlugOut, Bool.or_eq_true, Bool.and_eq_true, decide_eq_true_eq,
      beq_iff_eq] using h
  have hw : isJsWhitespace c = false := by
    rw [← Bool.not_eq_true]
    simp only [isJsWhitespace, Bool.or_eq_true, Bool.and_eq_true, decide_eq_true_eq,
      beq_iff_eq]
    omega
  refine ⟨?_, hw, toLower_eq_self_of_not_upper (by omega)⟩
  rcases hn with ((h1 | h1) | h1) | h1
  · simp only [slugKeep, isWordCharJs, Bool.or_eq_true, Bool.and_eq_true,
      decide_eq_true_eq, beq_iff_eq]
    omega
  · simp only [slugKeep, isWordCharJs, Bool.or_eq_true, Bool.and_eq_true,
      decide_eq_true_eq, beq_iff_eq]
    omega
  · simp only [slugKeep, isWordCharJs, Bool.or_eq_true, Bool.and_eq_true,
      decide_eq_true_eq, beq_iff_eq]
    omega
  · have hc : c = '-' := char_toNat_inj (by rw [h1]; decide)
    subst hc
    decide

theorem toLower_isSlugOut {c : Char} (h : (isWordCharJs c || c == '-') = true) :
    isSlugOut (Char.toLower c) = true := by
  by_cases hu : c.toNat ≥ 65 ∧ c.toNat ≤ 90
  · simp only [Char.toLower]
    rw [if_pos hu]
    have h32 : (Char.ofNat (c.toNat + 32)).toNat = c.toNat + 32 :=
      toNat_ofNat_lt (by omega)
    simp only [isSlugOut, h32, Bool.or_eq_true, Bool.and_eq_true, decide_eq_true_eq,
      beq_iff_eq]
    omega
  · rw [toLower_eq_self_of_not_upper hu]
    rw [Bool.or_eq_true] at h
    rcases h with hw | hd
    · simp only [isWordCharJs, Bool.or_eq_true, Bool.and_eq_true, decide_eq_true_eq,
        beq_iff_eq] at hw
      simp only [isSlugOut, Bool.or_eq_true, Bool.and_eq_true, decide_eq_true_eq,
        beq_iff_eq]
      omega
    · have hc : c = '-' := by simpa using hd
      subst hc
      decide

theorem mem_collapseWsAux {c : Char} (b : Bool) (l : List Char)
    (h : c ∈ collapseWsAux b l) :
    c = '-' ∨ (c ∈ l ∧ isJsWhitespace c = false) := by
  induction l generalizing b with
  | nil => simp [collapseWsAux] at h
  | cons a as ih =>
    simp only [collapseWsAux] at h
    by_cases hw : isJsWhitespace a
    · rw [if_pos hw] at h
      rcases List.mem_append.1 h with h1 | h2
      · refine Or.inl ?_
        cases b with
        | false => simpa using h1
        | true => simp at h1
      · rcases ih true h2 with h3 | ⟨h3, h4⟩
        · exact Or.inl h3
        · exact Or.inr ⟨List.mem_cons_of_mem _ h3, h4⟩
    · rw [if_neg hw] at h
      rcases List.mem_cons.1 h with rfl | h2
      · exact Or.inr ⟨List.mem_cons_self _ _, by simpa using hw⟩
      · rcases ih false h2 with h3 | ⟨h3, h4⟩
        · exact Or.inl h3
        · exact Or.inr ⟨List.mem_cons_of_mem _ h3, h4⟩

theorem collapseWsAux_eq_self (b : Bool) (l : List Char)
    (h : ∀ c ∈ l, isJsWhitespace c = false) : collapseWsAux b l = l := by
  induction l generalizing b with
  | nil => rfl
  | cons a as ih =>
    have ha := h a (List.mem_cons_self a as)
    simp only [collapseWsAux]
    rw [if_neg (by simp [ha]), ih false (fun c hc => h c (List.mem_cons_of_mem _ hc))]

theorem dropWhile_eq_self_of (p : Char → Bool) (l : List Char)
    (h : ∀ c ∈ l, p c = false) : l.dropWhile p = l := by
  cases l with
  | nil => rfl
  | cons a as =>
    rw [List.dropWhile_cons_of_neg]
    simp [h a (List.mem_cons_self a as)]

theorem mem_trimJs {c : Char} {l : List Char} (h : c ∈ trimJs l) : c ∈ l := by
  unfold trimJs at h
  rw [List.mem_reverse] at h
  have h2 := List.dropWhile_subset _ h
  rw [List.mem_reverse] at h2
  exact List.dropWhile_subset _ h2

theorem trimJs_eq_self (l : List Char) (h : ∀ c ∈ l, isJsWhitespace c = false) :
    trimJs l = l := by
  unfold trimJs
  rw [dropWhile_eq_self_of _ _ h,
    dropWhile_eq_self_of _ _ (fun c hc => h c (List.mem_reverse.1 hc)),
    List.reverse_reverse]

theorem mem_slugChars {c : Char} {l : List Char} (h : c ∈ slugChars l) :
    isSlugOut c = true := by
  simp only [slugChars, toLowerJs, List.mem_map] at h
  obtain ⟨d, hd, rfl⟩ := h
  rcases mem_collapseWsAux false _ hd with rfl | ⟨hd2, hwd⟩
  · decide
  · have hd3 : d ∈ removeIllegal l := mem_trimJs hd2
    have hk : slugKeep d = true := (List.mem_filter.1 hd3).2
    apply toLower_isSlugOut
    simp only [slugKeep, Bool.or_eq_true] at hk
    rcases hk with (hk | hk) | hk
    · simp [hk]
    · rw [hwd] at hk
      exact absurd hk (by simp)
    · simp [hk]

theorem map_toLower_eq_self (l : List Char) (h : ∀ c ∈ l, Char.toLower c = c) :
    l.map Char.toLower = l := by
  induction l with
  | nil => rfl
  | cons a as ih =>
    rw [List.map_cons, h a (List.mem_cons_self a as),
      ih (fun c hc => h c (List.mem_cons_of_mem _ hc))]

theorem slugChars_fixed (l : List Char) (h : ∀ c ∈ l, isSlugOut c = true) :
    slugChars l = l := by
  have h1 : removeIllegal l = l :=
    List.filter_eq_self.2 fun a ha => (isSlugOut_fixed (h a ha)).1
  have hw : ∀ c ∈ l, isJsWhitespace c = false :=
    fun a ha => (isSlugOut_fixed (h a ha)).2.1
  unfold slugChars collapseWs toLowerJs
  rw [h1, trimJs_eq_self _ hw, collapseWsAux_eq_self _ _ hw]
  exact map_toLower_eq_self _ fun a ha => (isSlugOut_fixed (h a ha)).2.2

/-! ## Helper lemmas: deduplication and sorting -/

theorem unitsLe_total (a b : List Nat) : (unitsLe a b || unitsLe b a) = true := by
  induction a generalizing b with
  | nil => simp [unitsLe]
  | cons x xs ih =>
    cases b with
    | nil => simp [unitsLe]
    | cons y ys =>
      simp only [unitsLe]
      by_cases h1 : x < y
      · simp [h1]
      · by_cases h2 : y < x
        · simp [h1, h2]
        · simp only [if_neg h1, if_neg h2]
          exact ih ys

theorem unitsLe_trans {a b c : List Nat} (h1 : unitsLe a b = true)
    (h2 : unitsLe b c = true) : unitsLe a c = true := by
  induction a generalizing b c with
  | nil => simp [unitsLe]
  | cons x xs ih =>
    cases b with
    | nil => simp [unitsLe] at h1
    | cons y ys =>
      cases c with
      | nil => simp [unitsLe] at h2
      | cons z zs =>
        simp only [unitsLe] at h1 h2 ⊢
        by_cases hxy : x < y
        · have hyz : y ≤ z := by
            by_contra hc
            push_neg at hc
            rw [if_neg (by omega), if_pos (by omega)] at h2
            cases h2
          rw [if_pos (by omega)]
        · by_cases hyx : y < x
          · rw [if_neg hxy, if_pos hyx] at h1
            cases h1
          · have hxe : x = y := by omega
            subst hxe
            rw [if_neg hxy, if_neg hyx] at h1
            by_cases hxz : x < z
            · rw [if_pos hxz]
            · by_cases hzx : z < x
              · rw [if_neg (by omega), if_pos (by omega)] at h2
                cases h2
              · rw [if_neg hxz, if_neg hzx]
                rw [if_neg hxz, if_neg hzx] at h2
                exact ih h1 h2

theorem jsLe_total (a b : List Char) : (jsLe a b || jsLe b a) = true :=
  unitsLe_total _ _

theorem jsLe_trans {a b c : List Char} (h1 : jsLe a b = true) (h2 : jsLe b c = true) :
    jsLe a c = true :=
  unitsLe_trans h1 h2

theorem mem_dedupFirst {x : List Char} (seen l : List (List Char)) :
    x ∈ dedupFirst seen l ↔ x ∈ l ∧ x ∉ seen := by
  induction l generalizing seen with
  | nil => simp [dedupFirst]
  | cons a as ih =>
    simp only [dedupFirst]
    by_cases ha : a ∈ seen
    · rw [if_pos ha, ih]
      constructor
      · rintro ⟨h1, h2⟩
        exact ⟨List.mem_cons_of_mem _ h1, h2⟩
      · rintro ⟨h1, h2⟩
        rcases List.mem_cons.1 h1 with rfl | h1
        · exact absurd ha h2
        · exact ⟨h1, h2⟩
    · rw [if_neg ha]
      constructor
      · intro h
        rcases List.mem_cons.1 h with rfl | h1
        · exact ⟨List.mem_cons_self _ _, ha⟩
        · obtain ⟨h2, h3⟩ := (ih (a :: seen)).1 h1
          exact ⟨List.mem_cons_of_mem _ h2, fun hc => h3 (List.mem_cons_of_mem _ hc)⟩
      · rintro ⟨h1, h2⟩
        by_cases hxa : x = a
        · subst hxa
          exact List.mem_cons_self _ _
        · rcases List.mem_cons.1 h1 with rfl | h1
          · exact absurd rfl hxa
          · refine List.mem_cons_of_mem _ ((ih (a :: seen)).2 ⟨h1, fun hc => ?_⟩)
            rcases List.mem_cons.1 hc with h4 | h4
            · exact hxa h4
            · exact h2 h4

theorem nodup_dedupFirst (seen l : List (List Char)) : (dedupFirst seen l).Nodup := by
  induction l generalizing seen with
  | nil => exact List.nodup_nil
  | cons a as ih =>
    simp only [dedupFirst]
    by_cases ha : a ∈ seen
    · rw [if_pos ha]
      exact ih seen
    · rw [if_neg ha]
      refine List.Nodup.cons (fun hc => ?_) (ih (a :: seen))
      exact ((mem_dedupFirst _ _).1 hc).2 (List.mem_cons_self _ _)

theorem mem_insertLe {a x : List Char} (l : List (List Char)) :
    a ∈ insertLe x l ↔ a = x ∨ a ∈ l := by
  induction l with
  | nil => simp [insertLe]
  | cons y ys ih =>
    simp only [insertLe]
    by_cases h : jsLe x y
    · rw [if_pos h]
      simp [List.mem_cons]
    · rw [if_neg h]
      simp only [List.mem_cons, ih]
      tauto

theorem mem_sortJs {a : List Char} (l : List (List Char)) :
    a ∈ sortJs l ↔ a ∈ l := by
  induction l with
  | nil => simp [sortJs]
  | cons x xs ih =>
    simp only [sortJs, mem_insertLe, ih, List.mem_cons]

theorem nodup_insertLe {x : List Char} (l : List (List Char)) (hx : x ∉ l)
    (h : l.Nodup) : (insertLe x l).Nodup := by
  induction l with
  | nil => simp [insertLe]
  | cons y ys ih =>
    simp only [insertLe]
    by_cases hle : jsLe x y
    · rw [if_pos hle]
      exact List.Nodup.cons hx h
    · rw [if_neg hle]
      have hys := List.Nodup.of_cons h
      have hyx : y ∉ insertLe x ys := by
        rw [mem_insertLe]
        rintro (rfl | hm)
        · exact hx (List.mem_cons_self _ _)
        · exact (List.nodup_cons.1 h).1 hm
      exact List.Nodup.cons hyx
        (ih (fun hc => hx (List.mem_cons_of_mem _ hc)) hys)

theorem nodup_sortJs (l : List (List Char)) (h : l.Nodup) : (sortJs l).Nodup := by
  induction l with
  | nil => exact List.nodup_nil
  | cons x xs ih =>
    simp only [sortJs]
    refine nodup_insertLe _ (fun hc => ?_) (ih (List.Nodup.of_cons h))
    exact (List.nodup_cons.1 h).1 ((mem_sortJs xs).1 hc)

theorem pairwise_insertLe {x : List Char} (l : List (List Char))
    (h : l.Pairwise (fun a b => jsLe a b = true)) :
    (insertLe x l).Pairwise (fun a b => jsLe a b = true) := by
  induction l with
  | nil => simp [insertLe]
  | cons y ys ih =>
    simp only [insertLe]
    by_cases hle : jsLe x y
    · rw [if_pos hle]
      refine List.Pairwise.cons (fun z hz => ?_) h
      rcases List.mem_cons.1 hz with rfl | hz
      · exact hle
      · exact jsLe_trans hle ((List.pairwise_cons.1 h).1 z hz)
    · rw [if_neg hle]
      have hyx : jsLe y x = true := by
        have := jsLe_total x y
        rw [Bool.or_eq_true] at this
        rcases this with h1 | h1
        · exact absurd h1 hle
        · exact h1
      obtain ⟨hhead, htail⟩ := List.pairwise_cons.1 h
      refine List.Pairwise.cons (fun z hz => ?_) (ih htail)
      rcases (mem_insertLe ys).1 hz with rfl | hz
      · exact hyx
      · exact hhead z hz

theorem pairwise_sortJs (l : List (List Char)) :
    (sortJs l).Pairwise (fun a b => jsLe a b = true) := by
  induction l with
  | nil => simp [sortJs]
  | cons x xs ih => exact pairwise_insertLe _ ih

theorem nodup_jsSetSort (l : List (List Char)) : (jsSetSort l).Nodup :=
  nodup_sortJs _ (nodup_dedupFirst [] l)

theorem pairwise_jsSetSort (l : List (List Char)) :
    (jsSetSort l).Pairwise (fun a b => jsLe a b = true) :=
  pairwise_sortJs _

theorem mem_jsSetSort {x : List Char} (l : List (List Char)) :
    x ∈ jsSetSort l ↔ x ∈ l := by
  rw [jsSetSort, mem_sortJs, mem_dedupFirst]
  simp

/-! ## Helper lemmas: the scanners -/

theorem scanTriggerAux_captured {trig : Char} {bodyPred : Char → Bool}
    {needBody : Bool} {m : RMatch} :
    ∀ {fuel i : Nat} {bnd : Bool} {l : List Char},
      m ∈ scanTriggerAux trig bodyPred needBody true fuel i bnd l →
      ∃ body, m.captured = trig :: body ∧ ∀ c ∈ body, bodyPred c = true := by
  intro fuel
  induction fuel with
  | zero => intro i bnd l h; simp [scanTriggerAux] at h
  | succ fuel ih =>
    intro i bnd l h
    cases l with
    | nil => simp [scanTriggerAux] at h
    | cons c rest =>
      simp only [scanTriggerAux] at h
      by_cases hc : (bnd && c == trig && (!needBody || !(rest.takeWhile bodyPred).isEmpty)) = true
      · rw [if_pos hc] at h
        rcases List.mem_cons.1 h with rfl | h2
        · have hct : c = trig := by
            simp only [Bool.and_eq_true, beq_iff_eq] at hc
            exact hc.1.2
          subst hct
          exact ⟨rest.takeWhile bodyPred, rfl, fun d hd => List.mem_takeWhile_imp hd⟩
        · exact ih h2
      · rw [if_neg hc] at h
        exact ih h

theorem scanWikiAux_captured {complete : Bool} {m : RMatch} :
    ∀ {fuel i : Nat} {st : WikiState} {l : List Char},
      m ∈ scanWikiAux complete fuel i st l →
      ∀ c ∈ m.captured, isWikiBodyChar c = true := by
  intro fuel
  induction fuel with
  | zero => intro i st l h; simp [scanWikiAux] at h
  | succ fuel ih =>
    intro i st l h
    cases l with
    | nil =>
      simp only [scanWikiAux] at h
      by_cases hop : (!complete && st.opn) = true
      · rw [if_pos hop] at h
        rcases List.mem_cons.1 h with rfl | h2
        · intro c hc
          simp at hc
        · simp at h2
      · rw [if_neg hop] at h
        simp at h
    | cons c rest =>
      simp only [scanWikiAux] at h
      by_cases hop : st.opn = true
      · rw [if_pos hop] at h
        by_cases hcm : complete = true
        · rw [if_pos hcm] at h
          by_cases hbd : (!((c :: rest).takeWhile isWikiBodyChar).isEmpty &&
              lookaheadCloses ((c :: rest).drop ((c :: rest).takeWhile isWikiBodyChar).length)) = true
          · rw [if_pos hbd] at h
            rcases List.mem_cons.1 h with rfl | h2
            · exact fun d hd => List.mem_takeWhile_imp hd
            · exact ih h2
          · rw [if_neg hbd] at h
            exact ih h
        · rw [if_neg hcm] at h
          rcases List.mem_cons.1 h with rfl | h2
          · exact fun d hd => List.mem_takeWhile_imp hd
          · exact ih h2
      · rw [if_neg hop] at h
        exact ih h

/-- The resolver tail never yields a bare `undefined`: every branch after a
strategy matched returns some location (or throws on an empty folder list). -/
theorem resolveWith_ne_returned_none (ws : Workspace) (sel : String) :
    (resolveWith ws sel).1 ≠ DefOutcome.returned none := by
  cases hf : (getWorkspaceMarkdownFiles ws).filter
      (fun f => parseName f.path == sluggedFileName sel) with
  | cons f fs => simp [resolveWith, hf]
  | nil =>
    cases hr : ws.roots with
    | none => simp [resolveWith, hf, hr]
    | some rs =>
      cases rs with
      | nil => simp [resolveWith, hf, hr]
      | cons r rest => simp [resolveWith, hf, hr]

/-! ## Claim theorems -/

/-- C4: the slug function (strip characters that are not word characters,
whitespace, or hyphens; trim; collapse whitespace runs to single hyphens;
lowercase) is idempotent — `slug (slug x) = slug x` for every string — and
`slug "My Meeting Notes" = "my-meeting-notes"`. -/
theorem c4_slug_idempotent :
    (∀ s : String, sluggedFileName (sluggedFileName s) = sluggedFileName s) ∧
      sluggedFileName "My Meeting Notes" = "my-meeting-notes" := by
  constructor
  · intro s
    have h : slugChars (slugChars s.data) = slugChars s.data :=
      slugChars_fixed _ fun c hc => mem_slugChars hc
    show (⟨slugChars (slugChars s.data)⟩ : String) = ⟨slugChars s.data⟩
    rw [h]
  · decide

/-- C1: contrary to the claim, the candidate-collection pass of
`MarkdownCompletionProvider.provideCompletionItems` never excises the
in-progress token's span — the call site does not pass its range to
`extractMatchesLineProcessingStrategy` — so a token being typed completes
itself.  With a single open document whose only line is `#tod` and the
cursor at its end, `#tod` is returned as a candidate (first conjunct),
whereas slicing the in-progress span out, as the utility's excision
parameter is designed to do and as the claim requires, would leave no
candidate at all (second conjunct). -/
theorem c1_in_progress_token_completes_itself :
    provideCompletionItems ⟨[], [⟨"/w/n.md", ["#tod".data]⟩], some ["/w"]⟩
        ⟨"/w/n.md", ["#tod".data]⟩ 0 4 =
      some [{ label := "#tod".data, kind := .value, insertText := none }] ∧
    extractMatchesLineProcessingStrategy .tag (some (0, 0, 4)) "#tod".data 0 = [] := by
  decide

/-- C2 (amended): `MarkdownDefinitionProvider.provideDefinition` walks all
four strategies' complete match patterns in registry order — not only the
wiki-link's — and returns none exactly when no strategy's complete pattern
yields a range at the cursor. -/
theorem c2_resolver_none_iff_no_strategy (ws : Workspace) (doc : TextDocument)
    (posLine posCh : Nat) :
    (provideDefinition ws doc posLine posCh).1 = DefOutcome.returned none ↔
      classifyWith matchScan (lineAt doc posLine) posCh = none := by
  unfold provideDefinition
  cases h : classifyWith matchScan (lineAt doc posLine) posCh with
  | none => simp
  | some km =>
    obtain ⟨k, m⟩ := km
    constructor
    · intro hres
      exact absurd hres (resolveWith_ne_returned_none _ _)
    · intro hc
      cases hc

/-- C2 counterexample: with the cursor inside `@jane` there is no wiki-link
token anywhere on the line (the wiki-link complete pattern has no match at
all), yet the resolver does not return none: the person strategy's complete
pattern matches first and resolution proceeds, even creating `jane.md`. -/
theorem c2_person_token_resolved_counterexample :
    matchScan .wikiLink "@jane".data = [] ∧
    provideDefinition ⟨[], [], some ["/w"]⟩ ⟨"/w/n.md", ["@jane".data]⟩ 0 2 =
      (DefOutcome.returned (some ⟨some "/w/jane.md", 0, 0⟩),
        [("/w/jane.md", "# @jane")]) := by
  decide

/-- C3: when the strategy loop finds a wiki-link token at the cursor, the
slug matches zero workspace markdown files and a first workspace root
exists, the resolver writes exactly one file — `{slug}.md` under the first
root, with content `"# "` followed by the original, un-slugged selected
text — and returns a location at that file, line 0, column 0. -/
theorem c3_creates_single_file (ws : Workspace) (doc : TextDocument)
    (posLine posCh : Nat) (m : RMatch) (r : String) (rs : List String)
    (hclass : classifyWith matchScan (lineAt doc posLine) posCh = some (.wikiLink, m))
    (hzero : (getWorkspaceMarkdownFiles ws).filter
        (fun f => parseName f.path ==
          sluggedFileName ⟨lineSegment (lineAt doc posLine) m.start m.stop⟩) = [])
    (hroots : ws.roots = some (r :: rs)) :
    provideDefinition ws doc posLine posCh =
      (DefOutcome.returned (some
          ⟨some (pathFormat r
            (sluggedFileName ⟨lineSegment (lineAt doc posLine) m.start m.stop⟩ ++ ".md")),
           0, 0⟩),
        [(pathFormat r
            (sluggedFileName ⟨lineSegment (lineAt doc posLine) m.start m.stop⟩ ++ ".md"),
          "# " ++ (⟨lineSegment (lineAt doc posLine) m.start m.stop⟩ : String))]) := by
  simp only [provideDefinition, hclass]
  simp only [resolveWith, hzero, hroots]

theorem c3_creates_single_file_witness :
    classifyWith matchScan (lineAt ⟨"/w/n.md", ["[[My Note]]".data]⟩ 0) 3 =
        some (.wikiLink, ⟨2, 9, "My Note".data⟩) ∧
    provideDefinition ⟨[], [], some ["/w"]⟩ ⟨"/w/n.md", ["[[My Note]]".data]⟩ 0 3 =
      (DefOutcome.returned (some ⟨some "/w/my-note.md", 0, 0⟩),
        [("/w/my-note.md", "# My Note")]) := by
  refine ⟨by decide, ?_⟩
  have h := c3_creates_single_file ⟨[], [], some ["/w"]⟩ ⟨"/w/n.md", ["[[My Note]]".data]⟩
    0 3 ⟨2, 9, "My Note".data⟩ "/w" [] (by decide) (by decide) rfl
  rw [h]
  decide

/-- C5: in a candidate-collection pass no underlying file is scanned twice:
a workspace file whose path names an open in-memory document is excluded
from the disk-scan list (`closedMarkdownFiles`), while that open document
is itself in the scanned-document list
(`getWorkspaceMarkdownDocuments`), so only the open content is scanned for
that file. -/
theorem c5_open_document_precedence (ws : Workspace) (f : WFile) (d : TextDocument)
    (hd : d ∈ ws.openDocs) (hmd : mdPathMatch d.fileName = true)
    (hpath : d.fileName = f.path) :
    f ∉ closedMarkdownFiles ws ∧ d ∈ getWorkspaceMarkdownDocuments ws := by
  have hdm : d ∈ getWorkspaceMarkdownDocuments ws :=
    List.mem_filter.2 ⟨hd, hmd⟩
  refine ⟨fun hc => ?_, hdm⟩
  have h2 := (List.mem_filter.1 hc).2
  rw [Bool.not_eq_true'] at h2
  have h3 : f.path ∈ documentNameSet ws :=
    List.mem_map.2 ⟨d, hdm, hpath⟩
  have h4 : (documentNameSet ws).contains f.path = true :=
    List.elem_eq_true_of_mem h3
  rw [h2] at h4
  cases h4

theorem c5_open_document_precedence_witness :
    (⟨"/w/a.md", ["#x".data]⟩ : TextDocument) ∈
        (⟨[⟨"file", "/w/a.md", ["#old".data]⟩], [⟨"/w/a.md", ["#x".data]⟩], none⟩ :
          Workspace).openDocs ∧
    mdPathMatch "/w/a.md" = true ∧
    (⟨"file", "/w/a.md", ["#old".data]⟩ : WFile) ∉
        closedMarkdownFiles ⟨[⟨"file", "/w/a.md", ["#old".data]⟩],
          [⟨"/w/a.md", ["#x".data]⟩], none⟩ ∧
    (⟨"/w/a.md", ["#x".data]⟩ : TextDocument) ∈
        getWorkspaceMarkdownDocuments ⟨[⟨"file", "/w/a.md", ["#old".data]⟩],
          [⟨"/w/a.md", ["#x".data]⟩], none⟩ := by
  refine ⟨by decide, by decide, ?_⟩
  exact c5_open_document_precedence _ _ _ (by decide) (by decide) rfl

/-- C6: a successful completion pass returns items whose labels are
pairwise distinct, sorted ascending in the JavaScript string order, and
are exactly the token strings collected from all scanned sources
(including the supplemental wiki producer) — a token produced by several
sources appears exactly once. -/
theorem c6_distinct_sorted (ws : Workspace) (doc : TextDocument) (posLine posCh : Nat)
    (k : StratKind) (r : RMatch) (items : List CompletionItem)
    (hclass : classifyWith rangeCheckScan (lineAt doc posLine) posCh = some (k, r))
    (hres : provideCompletionItems ws doc posLine posCh = some items) :
    (items.map (fun it => it.label)).Nodup ∧
      (items.map (fun it => it.label)).Pairwise (fun a b => jsLe a b = true) ∧
      ∀ t, t ∈ items.map (fun it => it.label) ↔ t ∈ collectMatches k ws := by
  simp only [provideCompletionItems, hclass, Option.some.injEq] at hres
  have hlabels : items.map (fun it => it.label) = jsSetSort (collectMatches k ws) := by
    rw [← hres, List.map_map]
    exact List.map_id _
  rw [hlabels]
  exact ⟨nodup_jsSetSort _, pairwise_jsSetSort _, fun t => mem_jsSetSort _⟩

theorem c6_distinct_sorted_witness :
    classifyWith rangeCheckScan
        (lineAt ⟨"/w/a.md", ["#b #a".data]⟩ 0) 1 = some (.tag, ⟨0, 2, "#b".data⟩) ∧
    provideCompletionItems
        ⟨[⟨"file", "/w/c.md", ["#a".data]⟩], [⟨"/w/a.md", ["#b #a".data]⟩], none⟩
        ⟨"/w/a.md", ["#b #a".data]⟩ 0 1 =
      some [{ label := "#a".data, kind := .value, insertText := none },
            { label := "#b".data, kind := .value, insertText := none }] ∧
    ((([{ label := "#a".data, kind := .value, insertText := none },
        { label := "#b".data, kind := .value, insertText := none }] :
          List CompletionItem).map (fun it => it.label)).Nodup ∧
      (([{ label := "#a".data, kind := .value, insertText := none },
        { label := "#b".data, kind := .value, insertText := none }] :
          List CompletionItem).map (fun it => it.label)).Pairwise
        (fun a b => jsLe a b = true) ∧
      ∀ t, t ∈ ([{ label := "#a".data, kind := .value, insertText := none },
        { label := "#b".data, kind := .value, insertText := none }] :
          List CompletionItem).map (fun it => it.label) ↔
        t ∈ collectMatches .tag
          ⟨[⟨"file", "/w/c.md", ["#a".data]⟩], [⟨"/w/a.md", ["#b #a".data]⟩], none⟩) := by
  refine ⟨by decide, by decide, ?_⟩
  exact c6_distinct_sorted
    ⟨[⟨"file", "/w/c.md", ["#a".data]⟩], [⟨"/w/a.md", ["#b #a".data]⟩], none⟩
    ⟨"/w/a.md", ["#b #a".data]⟩ 0 1 .tag ⟨0, 2, "#b".data⟩
    [{ label := "#a".data, kind := .value, insertText := none },
     { label := "#b".data, kind := .value, insertText := none }]
    (by decide) (by decide)

/-- C7 (amended): when no strategy matches the cursor context both providers
return none without raising; but when a definition token resolves to zero
files and the workspace has no root folder, the resolver does not return
none — it returns a location whose file reference is absent (built from
`files[0]` of an empty array), still without raising. -/
theorem c7_soft_degradation (ws : Workspace) (doc : TextDocument) (posLine posCh : Nat) :
    (classifyWith rangeCheckScan (lineAt doc posLine) posCh = none →
      provideCompletionItems ws doc posLine posCh = none) ∧
    (classifyWith matchScan (lineAt doc posLine) posCh = none →
      provideDefinition ws doc posLine posCh = (DefOutcome.returned none, [])) ∧
    (∀ k m, classifyWith matchScan (lineAt doc posLine) posCh = some (k, m) →
      (getWorkspaceMarkdownFiles ws).filter
          (fun f => parseName f.path ==
            sluggedFileName ⟨lineSegment (lineAt doc posLine) m.start m.stop⟩) = [] →
      ws.roots = none →
      provideDefinition ws doc posLine posCh =
        (DefOutcome.returned (some ⟨none, 0, 0⟩), [])) := by
  refine ⟨?_, ?_, ?_⟩
  · intro h
    simp only [provideCompletionItems, h]
  · intro h
    simp only [provideDefinition, h]
  · intro k m h1 h2 h3
    simp only [provideDefinition, h1, resolveWith, h2, h3]

theorem c7_soft_degradation_witness :
    provideCompletionItems ⟨[], [], none⟩ ⟨"/w/n.md", []⟩ 0 0 = none ∧
    provideDefinition ⟨[], [], none⟩ ⟨"/w/n.md", ["[[My Note]]".data]⟩ 0 3 =
      (DefOutcome.returned (some ⟨none, 0, 0⟩), []) :=
  ⟨(c7_soft_degradation ⟨[], [], none⟩ ⟨"/w/n.md", []⟩ 0 0).1 (by decide),
   (c7_soft_degradation ⟨[], [], none⟩ ⟨"/w/n.md", ["[[My Note]]".data]⟩ 0 3).2.2
     .wikiLink ⟨2, 9, "My Note".data⟩ (by decide) (by decide) rfl⟩

/-- C7 counterexample: with a wiki-link token whose slug matches no file
and no workspace root, the resolver's answer is not the empty/none result
the claim requires — it is a location with an absent file reference. -/
theorem c7_no_root_counterexample :
    provideDefinition ⟨[], [], none⟩ ⟨"/w/n.md", ["[[My Note]]".data]⟩ 0 3 ≠
        (DefOutcome.returned none, []) ∧
      provideDefinition ⟨[], [], none⟩ ⟨"/w/n.md", ["[[My Note]]".data]⟩ 0 3 =
        (DefOutcome.returned (some ⟨none, 0, 0⟩), []) := by
  decide

/-- C8 (amended): the early metadata helper
(`MetaDataCompletionItemProviderHelper`) does implement the
trailing-space rule — every item it returns carries an insert text equal
to its label plus one space exactly when the character after the original
cursor range is not whitespace; the strategy-based
`MarkdownCompletionProvider`, by contrast, leaves insert text unset so
the label is always inserted unmodified (see the counterexample). -/
theorem c8_helper_appends_space (trig : Char) (capTrig : Bool) (doc : TextDocument)
    (posLine posCh : Nat) (r : RMatch) (items : List CompletionItem)
    (hr : wordRangeAt (scanTrigger trig isMetaBodyChar false capTrig (lineAt doc posLine))
        posCh = some r)
    (hres : metaDataHelper trig capTrig doc posLine posCh = some items) :
    ∀ it ∈ items, it.insertText =
      some (it.label ++ if hasWsAfter (lineAt doc posLine) r.stop then [] else [' ']) := by
  simp only [metaDataHelper, hr, Option.some.injEq] at hres
  intro it hit
  rw [← hres] at hit
  obtain ⟨t, _, rfl⟩ := List.mem_map.1 hit
  rfl

theorem c8_helper_appends_space_witness :
    wordRangeAt (scanTrigger '#' isMetaBodyChar false true
        (lineAt ⟨"/w/n.md", ["#ann. #a".data]⟩ 0)) 8 = some ⟨6, 8, "#a".data⟩ ∧
    metaDataHelper '#' true ⟨"/w/n.md", ["#ann. #a".data]⟩ 0 8 =
      some [{ label := "#ann".data, kind := .value, insertText := some "#ann ".data }] ∧
    ∀ it ∈ [({ label := "#ann".data, kind := .value, insertText := some "#ann ".data } : CompletionItem)],
      it.insertText = some (it.label ++
        if hasWsAfter (lineAt ⟨"/w/n.md", ["#ann. #a".data]⟩ 0) (8 : Nat) then []
        else [' ']) := by
  refine ⟨by decide, by decide, ?_⟩
  exact c8_helper_appends_space '#' true ⟨"/w/n.md", ["#ann. #a".data]⟩ 0 8
    ⟨6, 8, "#a".data⟩ _ (by decide) (by decide)

/-- C8 counterexample: an item produced by the strategy-based
candidate-collection pass with a non-whitespace character right after the
cursor range still has no insert text set (the label `#a` is inserted
as-is, not `#a` plus a space, contradicting the claim). -/
theorem c8_provider_inserts_label_verbatim :
    provideCompletionItems ⟨[], [⟨"/w/n.md", ["#a]".data]⟩], some ["/w"]⟩
        ⟨"/w/n.md", ["#a]".data]⟩ 0 2 =
      some [{ label := "#a".data, kind := .value, insertText := none }] ∧
    hasWsAfter "#a]".data 2 = false := by
  decide

/-- The embedded `/\.(md)$/i` test holds exactly for strings ending in a
dot, then `m` or `M`, then `d` or `D`. -/
theorem mdPathMatch_iff (s : String) :
    mdPathMatch s = true ↔
      ∃ t c1 c2, s.data = t ++ ['.', c1, c2] ∧ (c1 = 'm' ∨ c1 = 'M') ∧
        (c2 = 'd' ∨ c2 = 'D') := by
  constructor
  · intro h
    unfold mdPathMatch at h
    rcases hrev : s.data.reverse with _ | ⟨d2, _ | ⟨m2, _ | ⟨dot, rest⟩⟩⟩ <;>
      rw [hrev] at h
    · simp at h
    · simp at h
    · simp at h
    · simp only [Bool.and_eq_true, Bool.or_eq_true, beq_iff_eq] at h
      obtain ⟨⟨hd, hm⟩, hdot⟩ := h
      subst hdot
      refine ⟨rest.reverse, m2, d2, ?_, hm, hd⟩
      have h2 : s.data = (d2 :: m2 :: '.' :: rest).reverse := by
        rw [← hrev, List.reverse_reverse]
      rw [h2]
      simp
  · rintro ⟨t, c1, c2, hs, h1, h2⟩
    unfold mdPathMatch
    rw [hs]
    have h3 : (t ++ ['.', c1, c2]).reverse = c2 :: c1 :: '.' :: t.reverse := by
      simp
    rw [h3]
    rcases h1 with rfl | rfl <;> rcases h2 with rfl | rfl <;> rfl

/-- C9 (amended): the files considered by every candidate-collection and
definition-resolution pass are exactly the workspace files with scheme
`file` whose path ends in `.md` case-insensitively — `.markdown` does NOT
qualify (see the counterexample) — and the open documents considered are
those whose file name passes the same `.md` test (with no scheme check). -/
theorem c9_markdown_filter (ws : Workspace) (f : WFile) (d : TextDocument) (s : String) :
    (f ∈ getWorkspaceMarkdownFiles ws ↔
      f ∈ ws.files ∧ f.scheme = "file" ∧ mdPathMatch f.path = true) ∧
    (d ∈ getWorkspaceMarkdownDocuments ws ↔
      d ∈ ws.openDocs ∧ mdPathMatch d.fileName = true) ∧
    (mdPathMatch s = true ↔
      ∃ t c1 c2, s.data = t ++ ['.', c1, c2] ∧ (c1 = 'm' ∨ c1 = 'M') ∧
        (c2 = 'd' ∨ c2 = 'D')) := by
  refine ⟨?_, ?_, mdPathMatch_iff s⟩
  · rw [getWorkspaceMarkdownFiles, List.mem_filter]
    simp only [Bool.and_eq_true, beq_iff_eq]
  · rw [getWorkspaceMarkdownDocuments, List.mem_filter]

/-- C9 counterexample: a workspace file named with the `.markdown`
extension — which the claim says belongs to the considered set — is
rejected by the code's `/\.(md)$/i` filter. -/
theorem c9_markdown_ext_excluded :
    "/w/a.markdown" = "/w/a" ++ ".markdown" ∧
    mdPathMatch "/w/a.markdown" = false ∧
    getWorkspaceMarkdownFiles ⟨[⟨"file", "/w/a.markdown", []⟩], [], none⟩ = [] := by
  decide

/-- C10 (amended): every candidate collected by the person, tag, or project
complete patterns begins with that strategy's trigger symbol, and a
wiki-link capture never contains `']'` (hence never the closing `]]`) —
but `'['` characters, including a `[[` pair, can occur inside a wiki-link
capture (see the counterexample). -/
theorem c10_candidate_shapes :
    (∀ line m, m ∈ matchScan .person line → ∃ body, m.captured = '@' :: body) ∧
    (∀ line m, m ∈ matchScan .tag line → ∃ body, m.captured = '#' :: body) ∧
    (∀ line m, m ∈ matchScan .project line → ∃ body, m.captured = '+' :: body) ∧
    (∀ line m, m ∈ matchScan .wikiLink line → ']' ∉ m.captured) := by
  refine ⟨?_, ?_, ?_, ?_⟩
  · intro line m h
    obtain ⟨body, hb, _⟩ := scanTriggerAux_captured h
    exact ⟨body, hb⟩
  · intro line m h
    obtain ⟨body, hb, _⟩ := scanTriggerAux_captured h
    exact ⟨body, hb⟩
  · intro line m h
    obtain ⟨body, hb, _⟩ := scanTriggerAux_captured h
    exact ⟨body, hb⟩
  · intro line m h hc
    have h2 := scanWikiAux_captured h ']' hc
    exact absurd h2 (by decide)

theorem c10_candidate_shapes_witness :
    (∃ body, (RMatch.mk 0 3 "@jo".data).captured = '@' :: body) ∧
    (∃ body, (RMatch.mk 0 2 "#a".data).captured = '#' :: body) ∧
    (∃ body, (RMatch.mk 0 2 "+p".data).captured = '+' :: body) ∧
    ']' ∉ (RMatch.mk 4 5 "a".data).captured :=
  ⟨c10_candidate_shapes.1 "@jo x".data ⟨0, 3, "@jo".data⟩ (by decide),
   c10_candidate_shapes.2.1 "#a".data ⟨0, 2, "#a".data⟩ (by decide),
   c10_candidate_shapes.2.2.1 "+p".data ⟨0, 2, "+p".data⟩ (by decide),
   c10_candidate_shapes.2.2.2 "x [[a]]".data ⟨4, 5, "a".data⟩ (by decide)⟩

/-- C10 counterexample: on the line `x [[a[[b]]` the wiki-link complete
pattern captures `a[[b`, which contains the opening `[[` pair the claim
says can never occur in a capture. -/
theorem c10_wiki_capture_contains_open_brackets :
    matchScan .wikiLink "x [[a[[b]]".data = [⟨4, 8, ['a', '[', '[', 'b']⟩] ∧
    '[' ∈ (['a', '[', '[', 'b'] : List Char) ∧
    (['a', '[', '[', 'b'] : List Char).take 3 = ['a', '[', '['] := by
  decide

end MdNotes
